import Mathlib

/-!
Verification development for the roadmap-rendering module
(`iolanta_roadmap/facets/roadmap.py`).

The Python module turns two streams of relational rows into a directed
graph description: a primary stream of task rows is normalised into a
task map, a derived compound-task map collects tasks that other tasks
declare themselves branches of, and node/edge descriptions are emitted
to the external graphviz collaborator.  Below, every Python function of
the module is embedded as an executable Lean definition: row streams are
lists of records, Python dicts are ordered association lists built by
insertion, the graphviz `node`/`edge` calls are materialised as lists of
node and edge specifications, and the `KeyError` raised on a dangling
branch parent is an `Option` failure.
-/

namespace Roadmap

/-- Character-level substitution used by `as_graph_id`: `:` becomes `_`. -/
def sanChar (c : Char) : Char :=
  if c = ':' then '_' else c

/-- `as_graph_id(node)`: `str(node).replace(':', '_')`.  The pattern is a
single character, so the replacement is an exact character map. -/
def as_graph_id (s : String) : String :=
  ⟨s.data.map sanChar⟩

/-- `format_record_label(raw_label)`: `raw_label.replace('|', '\\|')`. -/
def format_record_label (raw_label : String) : String :=
  ⟨raw_label.data.flatMap (fun c => if c = '|' then ['\\', '|'] else [c])⟩

/-- `source.replace('"', '')` performed at the start of `wrap_html`. -/
def stripDoubleQuotes (s : String) : String :=
  ⟨s.data.filter (fun c => c ≠ Char.ofNat 34)⟩

/-- One character of Python `html.escape` (with its default `quote=True`):
`&`, `<`, `>`, `"` and the apostrophe become HTML entities. -/
def escapeChar (c : Char) : List Char :=
  if c = '&' then "&amp;".data
  else if c = '<' then "&lt;".data
  else if c = '>' then "&gt;".data
  else if c = Char.ofNat 34 then "&quot;".data
  else if c = Char.ofNat 39 then "&#x27;".data
  else [c]

/-- Python `html.escape` as a character map; the stdlib performs the five
replacements sequentially, which coincides with this simultaneous map
because no inserted entity re-triggers a later replacement. -/
def htmlEscape (s : String) : String :=
  ⟨s.data.flatMap escapeChar⟩

/-- Greedy line packing: keep appending the next word (with a separating
space) while the line stays within `width`, else start a new line. -/
def packWords (width : Nat) (line : String) : List String → List String
  | [] => [line]
  | w :: ws =>
    if line.length + 1 + w.length ≤ width
    then packWords width (line ++ " " ++ w) ws
    else line :: packWords width w ws

/-- Split a character list at spaces, keeping the (possibly empty)
chunks between them; `cur` accumulates the current chunk reversed. -/
def splitSpaces (cur : List Char) : List Char → List String
  | [] => [⟨cur.reverse⟩]
  | c :: cs =>
    if c = ' '
    then (⟨cur.reverse⟩ : String) :: splitSpaces [] cs
    else splitSpaces (c :: cur) cs

/-- Model of Python `textwrap.wrap(source, width=...)`: split on spaces
(dropping empty chunks, as the stdlib's whitespace collapsing does) and
pack words greedily.  (The stdlib additionally collapses other
whitespace and breaks words longer than the width; the titles handled
here contain neither.) -/
def textwrap_wrap (width : Nat) (s : String) : List String :=
  match (splitSpaces [] s.data).filter (fun w => w ≠ "") with
  | [] => []
  | w :: ws => packWords width w ws

/-- `wrap_html(source, align)`: escape (after stripping double quotes),
wrap to width 20, join with `<br align="{align}"/>` and append one final
such line break. -/
def wrap_html (source : String) (align : String := "center") : String :=
  let splitter := "<br align=" ++ (Char.ofNat 34).toString ++ align
    ++ (Char.ofNat 34).toString ++ "/>"
  let wrapped :=
    String.intercalate splitter (textwrap_wrap 20 (htmlEscape (stripDoubleQuotes source)))
  wrapped ++ splitter

/-- `wrap_text(source)`: wrap to width 20 and join with a literal
backslash-n sequence. -/
def wrap_text (source : String) : String :=
  String.intercalate "\\n" (textwrap_wrap 20 source)

/-- The `Task` dataclass. -/
structure Task where
  id : String
  title : String
  is_bug : Bool := false
  is_focused : Bool := false
  blocks : List String := []
  is_branch_of : List String := []
deriving DecidableEq, Repr

/-- `Task.background_color`. -/
def Task.background_color (t : Task) : String :=
  if t.is_focused then "#730FC3"
  else if t.is_bug then "#AC6363"
  else "#788897"

/-- `Task.pen_color`. -/
def Task.pen_color (t : Task) : String :=
  if t.is_focused then "#730FC3"
  else if t.is_bug then "#AC6363"
  else "#4B5D6C"

/-- The `TaskWithBranches` dataclass: a `Task` plus its `branches`. -/
structure TaskWithBranches extends Task where
  branches : List Task := []
deriving DecidableEq, Repr

/-- One row of the primary `tasks.sparql` result stream.  `is_bug` and
`is_focused` record the presence of the marker key on the row; `blocks`
and `is_branch_of` are the optional edge-reference fields. -/
structure TaskRow where
  task : String
  title : String
  is_bug : Bool := false
  is_focused : Bool := false
  blocks : Option String := none
  is_branch_of : Option String := none
deriving DecidableEq, Repr

/-- One row of the secondary `branches.sparql` result stream. -/
structure BranchRow where
  task : String
  branch : String
  title : String
deriving DecidableEq, Repr

/-- Python truthiness of an optional field value as tested by the walrus
conditions in the module: the value must be present and non-empty. -/
def truthyOpt (o : Option String) : Option String :=
  o.filter (fun s => s ≠ "")

/-- Lexicographic code-point comparison of character lists.  Python's
`sorted` compares strings lexicographically by code point; this
structurally recursive form is used as the sort key relation. -/
def strLeAux : List Char → List Char → Bool
  | [], _ => true
  | _ :: _, [] => false
  | c1 :: t1, c2 :: t2 =>
    if c1.toNat < c2.toNat then true
    else if c2.toNat < c1.toNat then false
    else strLeAux t1 t2

/-- Python's string `<=` (lexicographic by code point). -/
def strLe (a b : String) : Bool :=
  strLeAux a.data b.data

theorem strLeAux_total : ∀ l1 l2, strLeAux l1 l2 = true ∨ strLeAux l2 l1 = true := by
  intro l1
  induction l1 with
  | nil => intro l2; left; rfl
  | cons c1 t1 ih =>
    intro l2
    cases l2 with
    | nil => right; rfl
    | cons c2 t2 =>
      rw [strLeAux, strLeAux]
      rcases Nat.lt_trichotomy c1.toNat c2.toNat with hlt | heq | hgt
      · left
        simp [hlt]
      · rcases ih t2 with h | h
        · left
          simp [heq, h]
        · right
          simp [heq.symm, h]
      · right
        simp [hgt]

theorem strLeAux_trans : ∀ l1 l2 l3, strLeAux l1 l2 = true → strLeAux l2 l3 = true →
    strLeAux l1 l3 = true := by
  intro l1
  induction l1 with
  | nil => intro l2 l3 _ _; rfl
  | cons c1 t1 ih =>
    intro l2 l3 h12 h23
    cases l2 with
    | nil => rw [strLeAux] at h12; cases h12
    | cons c2 t2 =>
      cases l3 with
      | nil => rw [strLeAux] at h23; cases h23
      | cons c3 t3 =>
        rw [strLeAux] at h12 h23 ⊢
        rcases Nat.lt_trichotomy c1.toNat c2.toNat with hlt12 | heq12 | hgt12
        · rcases Nat.lt_trichotomy c2.toNat c3.toNat with hlt23 | heq23 | hgt23
          · simp [Nat.lt_trans hlt12 hlt23]
          · simp [heq23 ▸ hlt12]
          · simp [hgt23, Nat.lt_asymm hgt23] at h23
        · rcases Nat.lt_trichotomy c2.toNat c3.toNat with hlt23 | heq23 | hgt23
          · simp [heq12 ▸ hlt23]
          · have he13 : c1.toNat = c3.toNat := heq12.trans heq23
            rw [if_neg (heq12 ▸ Nat.lt_irrefl _), if_neg (heq12 ▸ Nat.lt_irrefl _)] at h12
            rw [if_neg (heq23 ▸ Nat.lt_irrefl _), if_neg (heq23 ▸ Nat.lt_irrefl _)] at h23
            rw [if_neg (he13 ▸ Nat.lt_irrefl _), if_neg (he13 ▸ Nat.lt_irrefl _)]
            exact ih t2 t3 h12 h23
          · simp [hgt23, Nat.lt_asymm hgt23] at h23
        · simp [hgt12, Nat.lt_asymm hgt12] at h12

theorem strLeAux_antisymm : ∀ l1 l2, strLeAux l1 l2 = true → strLeAux l2 l1 = true →
    l1 = l2 := by
  intro l1
  induction l1 with
  | nil =>
    intro l2 _ h21
    cases l2 with
    | nil => rfl
    | cons c2 t2 => rw [strLeAux] at h21; cases h21
  | cons c1 t1 ih =>
    intro l2 h12 h21
    cases l2 with
    | nil => rw [strLeAux] at h12; cases h12
    | cons c2 t2 =>
      rw [strLeAux] at h12 h21
      rcases Nat.lt_trichotomy c1.toNat c2.toNat with hlt | heq | hgt
      · simp [hlt, Nat.lt_asymm hlt] at h21
      · rw [if_neg (heq ▸ Nat.lt_irrefl _), if_neg (heq ▸ Nat.lt_irrefl _)] at h12
        rw [if_neg (heq ▸ Nat.lt_irrefl _), if_neg (heq ▸ Nat.lt_irrefl _)] at h21
        have hc : c1 = c2 := by
          have h1 := Char.ofNat_toNat c1
          have h2 := Char.ofNat_toNat c2
          rw [← h1, ← h2, heq]
        rw [hc, ih t2 h12 h21]
      · simp [hgt, Nat.lt_asymm hgt] at h12

theorem strLe_total (a b : String) : strLe a b = true ∨ strLe b a = true :=
  strLeAux_total a.data b.data

theorem strLe_trans {a b c : String} (h1 : strLe a b = true) (h2 : strLe b c = true) :
    strLe a c = true :=
  strLeAux_trans a.data b.data c.data h1 h2

theorem strLe_antisymm {a b : String} (h1 : strLe a b = true) (h2 : strLe b a = true) :
    a = b := by
  cases a
  cases b
  exact congrArg String.mk (strLeAux_antisymm _ _ h1 h2)

/-- `itertools.groupby`: split a list into maximal runs of consecutive
elements sharing the same key, tagging each run with its key. -/
def groupRunsBy (key : α → String) : List α → List (String × List α)
  | [] => []
  | x :: xs =>
    match groupRunsBy key xs with
    | [] => [(key x, [x])]
    | (k, g) :: gs =>
      if key x = k
      then (key x, x :: g) :: gs
      else (key x, [x]) :: (k, g) :: gs

/-- The loop body of `GraphvizRoadmap._task_by_id_stream`: collapse one
group of rows sharing a task id into one `Task`.  Title and the two
marker flags are read off the first row of the group, while `blocks` and
`is_branch_of` take every truthy occurrence across the group, sanitised
and deduplicated (`list(set(...))`; the set's iteration order is
arbitrary in Python, modelled here by `List.dedup`).  `itertools.groupby`
never yields an empty group, so the `none` case is unreachable. -/
def taskOfGroup (kg : String × List TaskRow) : Option (String × Task) :=
  match kg.2 with
  | [] => none
  | first_row :: _ =>
    let graph_id := as_graph_id kg.1
    some (graph_id,
      { id := graph_id
        title := first_row.title
        is_bug := first_row.is_bug
        is_focused := first_row.is_focused
        blocks := ((kg.2.filterMap (fun r => truthyOpt r.blocks)).map as_graph_id).dedup
        is_branch_of :=
          ((kg.2.filterMap (fun r => truthyOpt r.is_branch_of)).map as_graph_id).dedup })

/-- `GraphvizRoadmap._task_by_id_stream`: sort the rows by task id
(Python `sorted` is stable, as is `insertionSort`), group consecutive rows by
task id with `itertools.groupby`, and collapse every group through
`taskOfGroup`. -/
def task_by_id_stream (rows : List TaskRow) : List (String × Task) :=
  let sortedRows := List.insertionSort (fun a b => strLe a.task b.task = true) rows
  (groupRunsBy TaskRow.task sortedRows).filterMap taskOfGroup

/-- One insertion into a Python dict rendered as an ordered association
list: an existing key keeps its position and takes the new value, a new
key is appended. -/
def dictInsert (m : List (String × α)) (kv : String × α) : List (String × α) :=
  if m.any (fun p => p.1 == kv.1)
  then m.map (fun p => if p.1 == kv.1 then (p.1, kv.2) else p)
  else m ++ [kv]

/-- `dict(stream)`: fold the stream through `dictInsert`. -/
def dictOfList (l : List (String × α)) : List (String × α) :=
  l.foldl dictInsert []

/-- `GraphvizRoadmap.task_by_id`: `dict(self._task_by_id_stream())`. -/
def task_by_id (rows : List TaskRow) : List (String × Task) :=
  dictOfList (task_by_id_stream rows)

/-- A dict comprehension whose value expression may fail (the Python
original raises `KeyError`): build the whole list or fail. -/
def optionMapAll (f : α → Option β) : List α → Option (List β)
  | [] => some []
  | x :: xs =>
    match f x, optionMapAll f xs with
    | some y, some ys => some (y :: ys)
    | _, _ => none

/-- `GraphvizRoadmap.task_with_branches_by_id`: list every
`(parent id, child task)` pair read off the tasks' `is_branch_of` sets,
sort by parent id, group, and for each parent look the parent task up in
the task map (a missing parent is the Python `KeyError`, here `none`)
and attach the group's children as `branches`. -/
def task_with_branches_by_id (taskById : List (String × Task)) :
    Option (List (String × TaskWithBranches)) :=
  let rows := (taskById.map Prod.snd).flatMap
    (fun child_task => child_task.is_branch_of.map (fun p => (p, child_task)))
  let sortedRows := List.insertionSort (fun a b => strLe a.1 b.1 = true) rows
  optionMapAll
    (fun pg => (List.lookup pg.1 taskById).map
      (fun parent => (pg.1, { parent with branches := pg.2.map Prod.snd })))
    (groupRunsBy Prod.fst sortedRows)

/-- `GraphvizRoadmap.find_branches_by_task`: group the secondary stream
by root task id — `itertools.groupby` without sorting, so runs follow
delivery order — and map every branch row to its sanitised branch id and
pipe-escaped title. -/
def find_branches_by_task (rows : List BranchRow) :
    List (String × List (String × String)) :=
  (groupRunsBy BranchRow.task rows).map fun tg =>
    (tg.1, tg.2.map (fun br => (as_graph_id br.branch, format_record_label br.title)))

/-- One branch sub-row cell of a compound node's label table:
`td(wrap_html(branch.title), border=..., sides='tb', port=branch.id,
colspan='2')`. -/
structure SubRowCell where
  content : String
  border : Nat
  sides : String := "tb"
  port : String
  colspan : String := "2"
deriving DecidableEq, Repr

/-- A compound node as passed to `graph.node` by
`draw_nodes_with_branches`: the label table's header row holds the xor
glyph cell (port `xor`) and the bold wrapped title (port `title`),
followed by the branch sub-rows. -/
structure CompoundNode where
  name : String
  xorPort : String := "xor"
  titleContent : String
  titlePort : String := "title"
  subRows : List SubRowCell
  bgcolor : String
  shape : String := "none"
  fontcolor : String := "white"
  fontname : String := "Arial"
  color : String
deriving DecidableEq, Repr

/-- `GraphvizRoadmap.draw_nodes_with_branches`: one compound node per
entry of the compound-task map; sub-rows carry border 1 on every row but
the last. -/
def draw_nodes_with_branches (twb : List (String × TaskWithBranches)) :
    List CompoundNode :=
  twb.map fun pt =>
    let task := pt.2
    { name := task.id
      titleContent := wrap_html task.title "left"
      subRows := task.branches.mapIdx fun index branch =>
        { content := wrap_html branch.title
          border := if index < task.branches.length - 1 then 1 else 0
          port := branch.id }
      bgcolor := task.background_color
      color := task.pen_color }

/-- A plain node as passed to `graph.node` by
`draw_nodes_without_branches`. -/
structure PlainNode where
  name : String
  label : String
  shape : String := "rect"
  style : String := "filled,rounded"
  fontcolor : String := "white"
  fontname : String := "Arial"
  fillcolor : String
  color : String
  margin : String := "0.3"
deriving DecidableEq, Repr

/-- `GraphvizRoadmap.draw_nodes_without_branches`: a plain rounded
rectangle for every task that is neither a compound-task key nor itself
a branch of anything. -/
def draw_nodes_without_branches (taskById : List (String × Task))
    (twb : List (String × TaskWithBranches)) : List PlainNode :=
  ((taskById.map Prod.snd).filter fun task =>
    (List.lookup task.id twb).isNone && task.is_branch_of.isEmpty).map fun task =>
    { name := task.id
      label := "<<b>" ++ wrap_html task.title ++ "</b>>"
      fillcolor := task.background_color
      color := task.pen_color }

/-- One `graph.edge` call. -/
structure EdgeSpec where
  source : String
  dest : String
  color : String := "#4B5D6C"
  penwidth : String := "2.5"
  headport : Option String
  tailport : Option String
deriving DecidableEq, Repr

/-- The destination endpoint resolved by `draw_edges`: the parent's node
at the blocked task's own port when the blocked task's `is_branch_of`
has a truthy first element (`funcy.first` plus the walrus truthiness
test), else the blocked task's `xor` port when it is a compound-task
key, else its plain id with `headport='w'`.  When a port is baked into
the endpoint string the side parameter is left `None`. -/
def destFor (twb : List (String × TaskWithBranches))
    (blocked_task : Task) (blocked_task_id : String) : String × Option String :=
  match truthyOpt blocked_task.is_branch_of.head? with
  | some parent_node_id => (parent_node_id ++ ":" ++ blocked_task_id ++ ":w", none)
  | none =>
    if (List.lookup blocked_task_id twb).isSome
    then (blocked_task_id ++ ":xor:w", none)
    else (blocked_task_id, some "w")

/-- The source endpoint resolved by `draw_edges`. -/
def srcFor (twb : List (String × TaskWithBranches)) (task : Task) :
    String × Option String :=
  if (List.lookup task.id twb).isSome
  then (task.id ++ ":title:e", none)
  else (task.id, some "e")

/-- The edge built by the body of `draw_edges` for one `(task, blocked)`
pair: the source is the task's `title` port (side unset) when the task
is a compound-task key, else its plain id with `tailport='e'`; the
destination follows `destFor`. -/
def edgeFor (twb : List (String × TaskWithBranches)) (task : Task)
    (blocked_task : Task) (blocked_task_id : String) : EdgeSpec :=
  { source := (srcFor twb task).1
    dest := (destFor twb blocked_task blocked_task_id).1
    headport := (destFor twb blocked_task blocked_task_id).2
    tailport := (srcFor twb task).2 }

/-- `GraphvizRoadmap.draw_edges`: for every task and every id it blocks,
look the blocked id up in the task map — a missing id is skipped with
`continue` — and emit the resolved edge (guarded, as in the source, by
the task's own id being a key of the task map). -/
def draw_edges (taskById : List (String × Task))
    (twb : List (String × TaskWithBranches)) : List EdgeSpec :=
  (taskById.map Prod.snd).flatMap fun task =>
    task.blocks.filterMap fun blocked_task_id =>
      match List.lookup blocked_task_id taskById with
      | none => none
      | some blocked_task =>
        if (List.lookup task.id taskById).isSome
        then some (edgeFor twb task blocked_task blocked_task_id)
        else none

/-- `GraphvizRoadmap.show` up to the external `graph.render` call: build
the task map, derive the compound-task map (failing, as the Python
`KeyError` does, on a dangling branch parent) and collect the three
batches of drawing calls. -/
def renderRoadmap (taskRows : List TaskRow) :
    Option (List CompoundNode × List PlainNode × List EdgeSpec) :=
  let taskById := task_by_id taskRows
  (task_with_branches_by_id taskById).map fun twb =>
    (draw_nodes_with_branches twb,
      draw_nodes_without_branches taskById twb,
      draw_edges taskById twb)

/-- The names of all top-level nodes emitted for a given task map and
compound-task map: compound nodes first, then plain nodes, matching the
call order in `show`. -/
def nodeNames (taskById : List (String × Task))
    (twb : List (String × TaskWithBranches)) : List String :=
  (draw_nodes_with_branches twb).map CompoundNode.name
    ++ (draw_nodes_without_branches taskById twb).map PlainNode.name

/-- The contribution of one `(task, blocked_task_id)` iteration of the
inner loop of `draw_edges`: nothing when the blocked id is absent from
the task map (the `continue`), else the single resolved edge, guarded by
the task's own id being a key of the task map. -/
def pairEdges (taskById : List (String × Task))
    (twb : List (String × TaskWithBranches)) (task : Task)
    (blocked_task_id : String) : List EdgeSpec :=
  match List.lookup blocked_task_id taskById with
  | none => []
  | some blocked_task =>
    if (List.lookup task.id taskById).isSome
    then [edgeFor twb task blocked_task blocked_task_id]
    else []

/-! ### Concrete inputs used by the witnesses and counterexamples -/

def c6map : List (String × Task) :=
  [("x", { id := "x", title := "X", is_branch_of := ["p"] })]

def c10map : List (String × Task) :=
  [("p", { id := "p", title := "P" }),
   ("x", { id := "x", title := "X", is_branch_of := ["p"] })]

def c10tw : TaskWithBranches :=
  { id := "p", title := "P",
    branches := [{ id := "x", title := "X", is_branch_of := ["p"] }] }

def c5taskA : Task :=
  { id := "a", title := "A", blocks := ["zzz", "b"] }

def c5taskB : Task :=
  { id := "b", title := "B" }

def c5map : List (String × Task) :=
  [("a", c5taskA), ("b", c5taskB)]

def c8rows : List TaskRow :=
  [{ task := "a", title := "A", blocks := some "b" },
   { task := "a", title := "A", blocks := some "b" },
   { task := "b", title := "B" }]

def c8task : Task :=
  { id := "a", title := "A", blocks := ["b"] }

def c2rows : List TaskRow :=
  [{ task := "a", title := "T" },
   { task := "a", title := "T", is_bug := true, is_focused := true }]

def c2task : Task :=
  { id := "a", title := "T" }

def c4map : List (String × Task) :=
  [("p", { id := "p", title := "P" }),
   ("x", { id := "x", title := "X", is_branch_of := ["p"] }),
   ("y", { id := "y", title := "Y", is_branch_of := ["x"] })]

def c4xtask : Task :=
  { id := "x", title := "X", is_branch_of := ["p"] }

def c7branchRows : List BranchRow :=
  [{ task := "p", branch := "x", title := "a|b" }]

def c7map : List (String × Task) :=
  [("p", { id := "p", title := "P" }),
   ("x", { id := "x", title := "Alpha", is_branch_of := ["p"] })]

def c7tw : TaskWithBranches :=
  { id := "p", title := "P",
    branches := [{ id := "x", title := "Alpha", is_branch_of := ["p"] }] }

def c1taskQ : Task :=
  { id := "q", title := "Q", blocks := ["x"] }

def c1taskX : Task :=
  { id := "x", title := "X", is_branch_of := ["p"] }

def c1map : List (String × Task) :=
  [("q", c1taskQ), ("x", c1taskX)]

def c9rows : List TaskRow :=
  [{ task := "r:p", title := "P" },
   { task := "r:x", title := "X", is_branch_of := some "r:p" },
   { task := "r:q", title := "Q", blocks := some "r:x" }]

def c9tw : TaskWithBranches :=
  { id := "r_p", title := "P",
    branches := [{ id := "r_x", title := "X", is_branch_of := ["r_p"] }] }

def c9m : List (String × TaskWithBranches) :=
  [("r_p", c9tw)]

def c3map : List (String × Task) :=
  [("p", { id := "p", title := "P" }),
   ("x", { id := "x", title := "X", is_branch_of := ["p"] }),
   ("y", { id := "y", title := "Y", is_branch_of := ["p"] })]

def c3tw : TaskWithBranches :=
  { id := "p", title := "P",
    branches := [{ id := "x", title := "X", is_branch_of := ["p"] },
                 { id := "y", title := "Y", is_branch_of := ["p"] }] }

/-! ### Association-list lemmas -/

theorem lookup_mem {l : List (String × α)} {k : String} {v : α}
    (h : List.lookup k l = some v) : (k, v) ∈ l := by
  induction l with
  | nil => simp [List.lookup] at h
  | cons p ps ih =>
    rw [List.lookup] at h
    by_cases hk : k = p.1
    · simp [hk] at h
      rw [List.mem_cons]
      left
      cases p
      simp_all
    · simp [beq_false_of_ne hk] at h
      exact List.mem_cons_of_mem _ (ih h)

theorem lookup_isSome_of_mem {l : List (String × α)} {k : String} {v : α}
    (h : (k, v) ∈ l) : (List.lookup k l).isSome := by
  induction l with
  | nil => simp at h
  | cons p ps ih =>
    rw [List.lookup]
    by_cases hk : k = p.1
    · simp [hk]
    · simp only [beq_false_of_ne hk]
      rcases List.mem_cons.mp h with h1 | h2
      · cases h1; simp at hk
      · exact ih h2

/-! ### `groupRunsBy` unfolding and structure lemmas -/

theorem groupRunsBy_cons_nil {key : α → String} {x : α} {xs : List α}
    (h : groupRunsBy key xs = []) :
    groupRunsBy key (x :: xs) = [(key x, [x])] := by
  rw [groupRunsBy, h]

theorem groupRunsBy_cons_eq {key : α → String} {x : α} {xs : List α}
    {k : String} {g : List α} {gs : List (String × List α)}
    (h : groupRunsBy key xs = (k, g) :: gs) (he : key x = k) :
    groupRunsBy key (x :: xs) = (key x, x :: g) :: gs := by
  rw [groupRunsBy, h]
  simp [he]

theorem groupRunsBy_cons_ne {key : α → String} {x : α} {xs : List α}
    {k : String} {g : List α} {gs : List (String × List α)}
    (h : groupRunsBy key xs = (k, g) :: gs) (hne : key x ≠ k) :
    groupRunsBy key (x :: xs) = (key x, [x]) :: (k, g) :: gs := by
  rw [groupRunsBy, h]
  simp [hne]

theorem group_ne_nil {key : α → String} {l : List α} {k : String} {g : List α}
    (h : (k, g) ∈ groupRunsBy key l) : g ≠ [] := by
  induction l generalizing k g with
  | nil => simp [groupRunsBy] at h
  | cons x xs ih =>
    rcases hg : groupRunsBy key xs with _ | ⟨⟨k2, g2⟩, gs⟩
    · rw [groupRunsBy_cons_nil hg] at h
      simp at h
      simp [h.2]
    · by_cases he : key x = k2
      · rw [groupRunsBy_cons_eq hg he] at h
        rcases List.mem_cons.mp h with h1 | h2
        · injection h1 with e1 e2
          simp [e2]
        · exact ih (hg ▸ List.mem_cons_of_mem _ h2)
      · rw [groupRunsBy_cons_ne hg he] at h
        rcases List.mem_cons.mp h with h1 | h2
        · injection h1 with e1 e2
          simp [e2]
        · exact ih (hg ▸ h2)

theorem mem_group_key {key : α → String} {l : List α} {k : String} {g : List α}
    (h : (k, g) ∈ groupRunsBy key l) : ∀ x ∈ g, key x = k := by
  induction l generalizing k g with
  | nil => simp [groupRunsBy] at h
  | cons x xs ih =>
    rcases hg : groupRunsBy key xs with _ | ⟨⟨k2, g2⟩, gs⟩
    · rw [groupRunsBy_cons_nil hg] at h
      simp at h
      intro y hy
      rw [h.2] at hy
      simp at hy
      rw [hy, h.1]
    · by_cases he : key x = k2
      · rw [groupRunsBy_cons_eq hg he] at h
        rcases List.mem_cons.mp h with h1 | h2
        · injection h1 with e1 e2
          subst e1
          intro y hy
          rw [e2] at hy
          rcases List.mem_cons.mp hy with h3 | h4
          · rw [h3]
          · rw [he]
            exact ih (hg ▸ List.mem_cons_self _ _) y h4
        · exact ih (hg ▸ List.mem_cons_of_mem _ h2)
      · rw [groupRunsBy_cons_ne hg he] at h
        rcases List.mem_cons.mp h with h1 | h2
        · injection h1 with e1 e2
          subst e1
          intro y hy
          rw [e2] at hy
          simp at hy
          rw [hy]
        · exact ih (hg ▸ h2)

theorem flatMap_snd_groupRunsBy (key : α → String) (l : List α) :
    (groupRunsBy key l).flatMap Prod.snd = l := by
  induction l with
  | nil => simp [groupRunsBy]
  | cons x xs ih =>
    rcases hg : groupRunsBy key xs with _ | ⟨⟨k2, g2⟩, gs⟩
    · rw [groupRunsBy_cons_nil hg]
      rw [hg] at ih
      simp at ih
      simp [ih]
    · by_cases he : key x = k2
      · rw [groupRunsBy_cons_eq hg he]
        rw [hg] at ih
        simp only [List.flatMap_cons] at ih ⊢
        simp only [List.cons_append]
        rw [ih]
      · rw [groupRunsBy_cons_ne hg he]
        rw [hg] at ih
        simp only [List.flatMap_cons] at ih ⊢
        simp [ih]

theorem mem_of_mem_group {key : α → String} {l : List α} {k : String}
    {g : List α} {y : α} (h : (k, g) ∈ groupRunsBy key l) (hy : y ∈ g) :
    y ∈ l := by
  rw [← flatMap_snd_groupRunsBy key l]
  exact List.mem_flatMap.mpr ⟨(k, g), h, hy⟩

theorem key_of_group_mem {key : α → String} {l : List α} {k : String}
    {g : List α} (h : (k, g) ∈ groupRunsBy key l) : ∃ y ∈ l, key y = k := by
  rcases g with _ | ⟨y, g'⟩
  · exact absurd rfl (group_ne_nil h)
  · exact ⟨y, mem_of_mem_group h (List.mem_cons_self _ _),
      mem_group_key h y (List.mem_cons_self _ _)⟩

/-- The strict variant of `strLe`. -/
def strLt (a b : String) : Prop :=
  strLe a b = true ∧ a ≠ b

theorem strLt_of_le_of_lt {a b c : String} (h1 : strLe a b = true)
    (h2 : strLt b c) : strLt a c := by
  refine ⟨strLe_trans h1 h2.1, ?_⟩
  intro he
  rw [he] at h1
  exact h2.2 (strLe_antisymm h2.1 h1)

theorem keys_pairwise_lt {key : α → String} {l : List α}
    (hs : l.Pairwise (fun a b => strLe (key a) (key b) = true)) :
    ((groupRunsBy key l).map Prod.fst).Pairwise strLt := by
  induction l with
  | nil => simp [groupRunsBy]
  | cons x xs ih =>
    have hx : ∀ y ∈ xs, strLe (key x) (key y) = true := (List.pairwise_cons.mp hs).1
    have hs' := (List.pairwise_cons.mp hs).2
    rcases hg : groupRunsBy key xs with _ | ⟨⟨k2, g2⟩, gs⟩
    · rw [groupRunsBy_cons_nil hg]
      simp
    · have ihg := ih hs'
      rw [hg] at ihg
      obtain ⟨y2, hy2, hky2⟩ : ∃ y ∈ xs, key y = k2 :=
        key_of_group_mem (hg ▸ List.mem_cons_self _ _)
      have hle2 : strLe (key x) k2 = true := hky2 ▸ hx y2 hy2
      by_cases he : key x = k2
      · rw [groupRunsBy_cons_eq hg he]
        simp only [List.map_cons] at ihg ⊢
        rw [he]
        exact ihg
      · rw [groupRunsBy_cons_ne hg he]
        simp only [List.map_cons] at ihg ⊢
        refine List.Pairwise.cons ?_ ihg
        intro k' hk'
        rcases List.mem_cons.mp hk' with h1 | h2
        · rw [h1]
          exact ⟨hle2, he⟩
        · exact strLt_of_le_of_lt hle2 ((List.pairwise_cons.mp ihg).1 k' h2)

theorem keys_nodup_of_sorted (key : α → String) {l : List α}
    (hs : l.Pairwise (fun a b => strLe (key a) (key b) = true)) :
    ((groupRunsBy key l).map Prod.fst).Nodup :=
  (keys_pairwise_lt hs).imp (fun h => h.2)

theorem assoc_nodup_unique {l : List (String × β)} {k : String} {v1 v2 : β}
    (hnd : (l.map Prod.fst).Nodup) (h1 : (k, v1) ∈ l) (h2 : (k, v2) ∈ l) :
    v1 = v2 := by
  induction l with
  | nil => simp at h1
  | cons p ps ih =>
    simp only [List.map_cons, List.nodup_cons] at hnd
    rcases List.mem_cons.mp h1 with e1 | m1 <;> rcases List.mem_cons.mp h2 with e2 | m2
    · rw [← e1] at e2
      injection e2 with _ e
      exact e.symm
    · exact absurd (List.mem_map.mpr ⟨(k, v2), m2, by rw [← e1]⟩) hnd.1
    · exact absurd (List.mem_map.mpr ⟨(k, v1), m1, by rw [← e2]⟩) hnd.1
    · exact ih hnd.2 m1 m2

theorem countP_flatMap_groups {key : α → String} {k : String} {g : List α}
    (p : α → Bool) :
    ∀ (gs : List (String × List α)),
      (∀ kg ∈ gs, ∀ x ∈ kg.2, key x = kg.1) →
      (gs.map Prod.fst).Nodup →
      (k, g) ∈ gs →
      (gs.flatMap Prod.snd).countP (fun x => p x && decide (key x = k))
        = g.countP p := by
  intro gs
  induction gs with
  | nil => intro _ _ h; simp at h
  | cons kg1 gs' ih =>
    intro hkeys hnd h
    obtain ⟨k1, g1⟩ := kg1
    simp only [List.map_cons, List.nodup_cons] at hnd
    simp only [List.flatMap_cons, List.countP_append]
    rcases List.mem_cons.mp h with e1 | m1
    · injection e1 with ek eg
      subst ek
      subst eg
      have hg1 : g.countP (fun x => p x && decide (key x = k)) = g.countP p := by
        apply List.countP_congr
        intro a ha
        have := hkeys (k, g) (List.mem_cons_self _ _) a ha
        simp [this]
      have hrest : (gs'.flatMap Prod.snd).countP (fun x => p x && decide (key x = k)) = 0 := by
        apply List.countP_eq_zero.mpr
        intro a ha
        obtain ⟨kg', hkg', ha'⟩ := List.mem_flatMap.mp ha
        have hka : key a = kg'.1 := hkeys kg' (List.mem_cons_of_mem _ hkg') a ha'
        have hne : kg'.1 ≠ k := by
          intro e
          exact hnd.1 (e ▸ List.mem_map.mpr ⟨kg', hkg', rfl⟩)
        simp [hka, hne]
      rw [hg1, hrest]
      omega
    · have hne : k1 ≠ k := by
        intro e
        exact hnd.1 (e ▸ List.mem_map.mpr ⟨(k, g), m1, rfl⟩)
      have hg1 : g1.countP (fun x => p x && decide (key x = k)) = 0 := by
        apply List.countP_eq_zero.mpr
        intro a ha
        have hka : key a = k1 := hkeys (k1, g1) (List.mem_cons_self _ _) a ha
        simp [hka, hne]
      rw [hg1]
      rw [ih (fun kg hkg => hkeys kg (List.mem_cons_of_mem _ hkg)) hnd.2 m1]
      omega

theorem countP_group (key : α → String) {l : List α} {k : String} {g : List α}
    (hnd : ((groupRunsBy key l).map Prod.fst).Nodup)
    (h : (k, g) ∈ groupRunsBy key l) (p : α → Bool) :
    l.countP (fun x => p x && decide (key x = k)) = g.countP p := by
  rw [← flatMap_snd_groupRunsBy key l]
  exact countP_flatMap_groups p (groupRunsBy key l) (fun kg hkg => mem_group_key hkg) hnd h

/-! ### `optionMapAll` lemmas -/

theorem optionMapAll_mem_forward {f : α → Option β} {l : List α} {m : List β}
    (h : optionMapAll f l = some m) : ∀ b ∈ m, ∃ a ∈ l, f a = some b := by
  induction l generalizing m with
  | nil =>
    simp [optionMapAll] at h
    simp [h]
  | cons x xs ih =>
    rw [optionMapAll] at h
    rcases hx : f x with _ | y <;> rw [hx] at h
    · simp at h
    · rcases hxs : optionMapAll f xs with _ | ys <;> rw [hxs] at h
      · simp at h
      · simp at h
        intro b hb
        rw [← h] at hb
        rcases List.mem_cons.mp hb with e | m2
        · exact ⟨x, List.mem_cons_self _ _, e ▸ hx⟩
        · obtain ⟨a, ha, hfa⟩ := ih hxs b m2
          exact ⟨a, List.mem_cons_of_mem _ ha, hfa⟩

theorem optionMapAll_mem_backward {f : α → Option β} {l : List α} {m : List β}
    (h : optionMapAll f l = some m) : ∀ a ∈ l, ∃ b ∈ m, f a = some b := by
  induction l generalizing m with
  | nil => simp
  | cons x xs ih =>
    rw [optionMapAll] at h
    rcases hx : f x with _ | y <;> rw [hx] at h
    · simp at h
    · rcases hxs : optionMapAll f xs with _ | ys <;> rw [hxs] at h
      · simp at h
      · simp at h
        intro a ha
        rcases List.mem_cons.mp ha with e | m2
        · exact ⟨y, by rw [← h]; exact List.mem_cons_self _ _, e ▸ hx⟩
        · obtain ⟨b, hb, hfb⟩ := ih hxs a m2
          exact ⟨b, by rw [← h]; exact List.mem_cons_of_mem _ hb, hfb⟩

theorem optionMapAll_none_of_mem {f : α → Option β} {l : List α} {a : α}
    (ha : a ∈ l) (hfa : f a = none) : optionMapAll f l = none := by
  induction l with
  | nil => simp at ha
  | cons x xs ih =>
    rw [optionMapAll]
    rcases List.mem_cons.mp ha with e | m2
    · rw [← e, hfa]
    · rw [ih m2]
      rcases f x <;> simp

/-! ### `dictOfList` lemmas -/

theorem mem_dictInsert {m : List (String × α)} {kv p : String × α}
    (h : p ∈ dictInsert m kv) : p ∈ m ∨ p = kv := by
  obtain ⟨k0, v0⟩ := kv
  rw [dictInsert] at h
  split at h
  · obtain ⟨q, hq, he⟩ := List.mem_map.mp h
    by_cases hk : q.1 == k0
    · rw [if_pos hk] at he
      right
      rw [← he]
      have hq1 : q.1 = k0 := by simpa using hk
      rw [hq1]
    · rw [if_neg hk] at he
      left
      rw [← he]
      exact hq
  · rcases List.mem_append.mp h with h1 | h2
    · left
      exact h1
    · right
      simpa using h2

theorem mem_dictOfList {l : List (String × α)} {p : String × α}
    (h : p ∈ dictOfList l) : p ∈ l := by
  suffices haux : ∀ (l2 acc : List (String × α)),
      p ∈ l2.foldl dictInsert acc → p ∈ acc ∨ p ∈ l2 by
    rcases haux l [] h with h1 | h2
    · simp at h1
    · exact h2
  intro l2
  induction l2 with
  | nil =>
    intro acc h2
    left
    simpa using h2
  | cons x xs ih =>
    intro acc h2
    rw [List.foldl_cons] at h2
    rcases ih (dictInsert acc x) h2 with h1 | h3
    · rcases mem_dictInsert h1 with ha | hx
      · left
        exact ha
      · right
        rw [hx]
        exact List.mem_cons_self _ _
    · right
      exact List.mem_cons_of_mem _ h3

/-! ### Shape of the normalised tasks -/

theorem taskOfGroup_some {kg : String × List TaskRow} {k : String} {t : Task}
    (h : taskOfGroup kg = some (k, t)) :
    k = as_graph_id kg.1 ∧ t.id = k
      ∧ (∃ first rest, kg.2 = first :: rest ∧ t.title = first.title
          ∧ t.is_bug = first.is_bug ∧ t.is_focused = first.is_focused)
      ∧ t.blocks = ((kg.2.filterMap (fun r => truthyOpt r.blocks)).map as_graph_id).dedup
      ∧ t.is_branch_of
          = ((kg.2.filterMap (fun r => truthyOpt r.is_branch_of)).map as_graph_id).dedup := by
  obtain ⟨tid, grows⟩ := kg
  rcases grows with _ | ⟨first, rest⟩
  · simp [taskOfGroup] at h
  · rw [taskOfGroup] at h
    simp only [Option.some.injEq, Prod.mk.injEq] at h
    obtain ⟨hk, ht⟩ := h
    refine ⟨hk.symm, ?_, ⟨first, rest, rfl, ?_, ?_, ?_⟩, ?_, ?_⟩ <;>
      simp [← ht, hk]

theorem stream_mem_shape {rows : List TaskRow} {k : String} {t : Task}
    (h : (k, t) ∈ task_by_id_stream rows) :
    t.id = k ∧ t.blocks.Nodup ∧ t.is_branch_of.Nodup
      ∧ (∃ r ∈ rows, k = as_graph_id r.task)
      ∧ (∀ b ∈ t.blocks, ∃ r ∈ rows, ∃ raw,
          truthyOpt r.blocks = some raw ∧ b = as_graph_id raw)
      ∧ (∀ b ∈ t.is_branch_of, ∃ r ∈ rows, ∃ raw,
          truthyOpt r.is_branch_of = some raw ∧ b = as_graph_id raw) := by
  rw [task_by_id_stream] at h
  obtain ⟨kg, hkg, hsome⟩ := List.mem_filterMap.mp h
  obtain ⟨hk, hid, hfirst, hb, hbo⟩ := taskOfGroup_some hsome
  have hsortmem : ∀ r ∈ kg.2, r ∈ rows := by
    intro r hr
    exact (List.perm_insertionSort (fun a b => strLe a.task b.task = true) rows).mem_iff.mp
      (mem_of_mem_group hkg hr)
  refine ⟨hid, ?_, ?_, ?_, ?_, ?_⟩
  · rw [hb]
    exact List.nodup_dedup _
  · rw [hbo]
    exact List.nodup_dedup _
  · obtain ⟨first, rest, he, _⟩ := hfirst
    refine ⟨first, hsortmem first (by rw [he]; exact List.mem_cons_self _ _), ?_⟩
    rw [hk, mem_group_key hkg first (by rw [he]; exact List.mem_cons_self _ _)]
  · intro b hbmem
    rw [hb] at hbmem
    obtain ⟨raw, hraw, he⟩ := List.mem_map.mp (List.mem_dedup.mp hbmem)
    obtain ⟨r, hr, hropt⟩ := List.mem_filterMap.mp hraw
    exact ⟨r, hsortmem r hr, raw, hropt, he.symm⟩
  · intro b hbmem
    rw [hbo] at hbmem
    obtain ⟨raw, hraw, he⟩ := List.mem_map.mp (List.mem_dedup.mp hbmem)
    obtain ⟨r, hr, hropt⟩ := List.mem_filterMap.mp hraw
    exact ⟨r, hsortmem r hr, raw, hropt, he.symm⟩

theorem task_by_id_mem_shape {rows : List TaskRow} {k : String} {t : Task}
    (h : (k, t) ∈ task_by_id rows) :
    t.id = k ∧ t.blocks.Nodup ∧ t.is_branch_of.Nodup
      ∧ (∃ r ∈ rows, k = as_graph_id r.task)
      ∧ (∀ b ∈ t.blocks, ∃ r ∈ rows, ∃ raw,
          truthyOpt r.blocks = some raw ∧ b = as_graph_id raw)
      ∧ (∀ b ∈ t.is_branch_of, ∃ r ∈ rows, ∃ raw,
          truthyOpt r.is_branch_of = some raw ∧ b = as_graph_id raw) :=
  stream_mem_shape (mem_dictOfList h)

/-! ### Edge-loop decomposition -/

theorem filterMap_eq_flatMap_toList (f : α → Option β) (l : List α) :
    l.filterMap f = l.flatMap (fun a => (f a).toList) := by
  induction l with
  | nil => rfl
  | cons x xs ih => cases hfx : f x <;> simp [List.filterMap_cons, hfx, ih]

theorem pairEdges_of_none {taskById : List (String × Task)}
    {twb : List (String × TaskWithBranches)} {task : Task} {d : String}
    (h : List.lookup d taskById = none) :
    pairEdges taskById twb task d = [] := by
  rw [pairEdges, h]

theorem pairEdges_of_some {taskById : List (String × Task)}
    {twb : List (String × TaskWithBranches)} {task : Task} {d : String}
    {blocked_task : Task} (h : List.lookup d taskById = some blocked_task)
    (hown : (List.lookup task.id taskById).isSome) :
    pairEdges taskById twb task d = [edgeFor twb task blocked_task d] := by
  simp [pairEdges, h, hown]

theorem pairEdges_length_le_one (taskById : List (String × Task))
    (twb : List (String × TaskWithBranches)) (task : Task) (d : String) :
    (pairEdges taskById twb task d).length ≤ 1 := by
  rcases hl : List.lookup d taskById with _ | bt
  · simp [pairEdges, hl]
  · simp only [pairEdges, hl]
    split <;> simp

theorem draw_edges_eq_flatMap (taskById : List (String × Task))
    (twb : List (String × TaskWithBranches)) :
    draw_edges taskById twb
      = (taskById.map Prod.snd).flatMap
          (fun task => task.blocks.flatMap (pairEdges taskById twb task)) := by
  rw [draw_edges]
  congr 1
  funext task
  rw [filterMap_eq_flatMap_toList]
  congr 1
  funext d
  rcases hl : List.lookup d taskById with _ | bt
  · simp [pairEdges_of_none hl]
  · simp only [pairEdges, hl]
    split <;> rfl

/-! ### Counting branch pairs -/

theorem branch_rows_countP (values : List Task) (X : String) (c : Task)
    (hnd : ∀ t ∈ values, t.is_branch_of.Nodup) :
    (values.flatMap (fun child_task => child_task.is_branch_of.map
        (fun p => (p, child_task)))).countP
        (fun x => x.2 == c && decide (x.1 = X))
      = values.countP (fun t => t == c && decide (X ∈ t.is_branch_of)) := by
  induction values with
  | nil => rfl
  | cons t ts ih =>
    have hndt := hnd t (List.mem_cons_self _ _)
    have hnd' : ∀ u ∈ ts, u.is_branch_of.Nodup :=
      fun u hu => hnd u (List.mem_cons_of_mem _ hu)
    simp only [List.flatMap_cons, List.countP_append, List.countP_cons]
    rw [ih hnd', List.countP_map]
    have hhead : (t.is_branch_of.countP
          ((fun x : String × Task => x.2 == c && decide (x.1 = X))
            ∘ (fun p => (p, t))))
        = if (t == c && decide (X ∈ t.is_branch_of)) = true then 1 else 0 := by
      by_cases hc : t = c
      · have hcb : (t == c) = true := by simp [hc]
        have hcong : t.is_branch_of.countP
              ((fun x : String × Task => x.2 == c && decide (x.1 = X))
                ∘ (fun p => (p, t)))
            = t.is_branch_of.countP (fun p => p == X) := by
          apply List.countP_congr
          intro a _
          by_cases ha : a = X <;> simp [Function.comp, ha, hcb]
        rw [hcong, ← List.count_eq_countP]
        by_cases hX : X ∈ t.is_branch_of
        · rw [List.count_eq_one_of_mem hndt hX]
          simp [hcb, hX]
        · rw [List.count_eq_zero_of_not_mem hX]
          simp [hcb, hX]
      · have hcb : (t == c) = false := by simp [hc]
        have hcong : t.is_branch_of.countP
              ((fun x : String × Task => x.2 == c && decide (x.1 = X))
                ∘ (fun p => (p, t)))
            = t.is_branch_of.countP (fun _ => false) := by
          apply List.countP_congr
          intro a _
          simp [Function.comp, hcb]
        rw [hcong]
        simp [hcb]
    rw [hhead]
    omega

/-! ## Claims

One theorem per claim of the specification audit, each stated over the
embedded definitions above. -/

/-- C6: if any task declares `is_branch_of` containing a parent id absent
from the main task map, building the compound-task map fails (the Python
`KeyError`, modelled as `none`) rather than silently skipping the
entry. -/
theorem C6_dangling_parent_fatal (taskById : List (String × Task))
    (p : String) (t : Task) (ht : t ∈ taskById.map Prod.snd)
    (hp : p ∈ t.is_branch_of) (habs : List.lookup p taskById = none) :
    task_with_branches_by_id taskById = none := by
  rw [task_with_branches_by_id]
  have hrows : (p, t) ∈ (taskById.map Prod.snd).flatMap
      (fun child_task => child_task.is_branch_of.map (fun q => (q, child_task))) :=
    List.mem_flatMap.mpr ⟨t, ht, List.mem_map.mpr ⟨p, hp, rfl⟩⟩
  have hsorted : (p, t) ∈ List.insertionSort (fun a b => strLe a.1 b.1 = true)
      ((taskById.map Prod.snd).flatMap
        (fun child_task => child_task.is_branch_of.map (fun q => (q, child_task)))) :=
    (List.perm_insertionSort _ _).mem_iff.mpr hrows
  have hgroups : (p, t) ∈ (groupRunsBy Prod.fst
      (List.insertionSort (fun a b => strLe a.1 b.1 = true)
        ((taskById.map Prod.snd).flatMap
          (fun child_task => child_task.is_branch_of.map
            (fun q => (q, child_task)))))).flatMap Prod.snd := by
    rw [flatMap_snd_groupRunsBy]
    exact hsorted
  obtain ⟨⟨k1, g1⟩, hkg, hmem⟩ := List.mem_flatMap.mp hgroups
  have hkey : k1 = p := (mem_group_key hkg (p, t) hmem).symm
  apply optionMapAll_none_of_mem hkg
  rw [hkey, habs]
  rfl

/-- Witness for C6: a single task declaring itself a branch of the
missing parent `p` makes the compound-task map construction fail. -/
theorem C6_dangling_parent_fatal_witness :
    (({ id := "x", title := "X", is_branch_of := ["p"] } : Task) ∈ c6map.map Prod.snd
        ∧ "p" ∈ ({ id := "x", title := "X", is_branch_of := ["p"] } : Task).is_branch_of
        ∧ List.lookup "p" c6map = none)
      ∧ task_with_branches_by_id c6map = none :=
  ⟨⟨by decide, by decide, by decide⟩,
    C6_dangling_parent_fatal c6map "p"
      { id := "x", title := "X", is_branch_of := ["p"] }
      (by decide) (by decide) (by decide)⟩

/-- C10: every entry of the compound-task map carries a non-empty
`branches` list: a compound node is never built with zero sub-rows. -/
theorem C10_branches_nonempty (taskById : List (String × Task))
    (m : List (String × TaskWithBranches))
    (h : task_with_branches_by_id taskById = some m)
    (k : String) (tw : TaskWithBranches) (hmem : (k, tw) ∈ m) :
    tw.branches ≠ [] := by
  rw [task_with_branches_by_id] at h
  obtain ⟨⟨k1, g1⟩, hkg, hf⟩ := optionMapAll_mem_forward h (k, tw) hmem
  rcases hlook : List.lookup k1 taskById with _ | parent <;> rw [hlook] at hf
  · simp at hf
  · simp only [Option.map_some', Option.some.injEq, Prod.mk.injEq] at hf
    obtain ⟨hk1, htw⟩ := hf
    rw [← htw]
    simp only [ne_eq, List.map_eq_nil_iff]
    exact group_ne_nil hkg

/-- Witness for C10: the compound map built from a parent and one branch
has the branch in its `branches` list, which is non-empty. -/
theorem C10_branches_nonempty_witness :
    (task_with_branches_by_id c10map = some [("p", c10tw)]
        ∧ ("p", c10tw) ∈ [("p", c10tw)])
      ∧ c10tw.branches ≠ [] :=
  ⟨⟨by decide, by decide⟩,
    C10_branches_nonempty c10map [("p", c10tw)] (by decide) "p" c10tw (by decide)⟩

/-- C5: `draw_edges` is exactly the concatenation of the per-pair
contributions: a `(task, D)` pair whose blocked id `D` is absent from
the task map contributes no edge (and, the embedding being total, no
error), while every other pair contributes exactly its one resolved
edge, so the remaining edges are all emitted and rendering completes. -/
theorem C5_absent_target_skipped (taskById : List (String × Task))
    (twb : List (String × TaskWithBranches)) :
    draw_edges taskById twb
        = (taskById.map Prod.snd).flatMap
            (fun task => task.blocks.flatMap (pairEdges taskById twb task))
      ∧ (∀ task d, List.lookup d taskById = none →
          pairEdges taskById twb task d = [])
      ∧ (∀ task d blocked_task, List.lookup d taskById = some blocked_task →
          (List.lookup task.id taskById).isSome →
          pairEdges taskById twb task d = [edgeFor twb task blocked_task d]) :=
  ⟨draw_edges_eq_flatMap taskById twb,
    fun _ _ h => pairEdges_of_none h,
    fun _ _ _ h hown => pairEdges_of_some h hown⟩

/-- Witness for C5: in a map where task `a` blocks the missing id `zzz`
and the present id `b`, the `zzz` pair yields no edge while the `b` pair
yields its edge, and `draw_edges` is their concatenation. -/
theorem C5_absent_target_skipped_witness :
    (List.lookup "zzz" c5map = none
        ∧ pairEdges c5map [] c5taskA "zzz" = [])
      ∧ (List.lookup "b" c5map = some c5taskB
          ∧ (List.lookup c5taskA.id c5map).isSome
          ∧ pairEdges c5map [] c5taskA "b" = [edgeFor [] c5taskA c5taskB "b"])
      ∧ draw_edges c5map []
          = (c5map.map Prod.snd).flatMap
              (fun task => task.blocks.flatMap (pairEdges c5map [] task)) :=
  ⟨⟨by decide,
      (C5_absent_target_skipped c5map []).2.1 c5taskA "zzz" (by decide)⟩,
    ⟨by decide, by decide,
      (C5_absent_target_skipped c5map []).2.2 c5taskA "b" c5taskB (by decide) (by decide)⟩,
    (C5_absent_target_skipped c5map []).1⟩

/-- C8: every normalised task has duplicate-free `blocks` and
`is_branch_of` (the set union is idempotent), and consequently the inner
edge loop contributes at most one edge for any ordered pair of the task
and a fixed blocked id `D`. -/
theorem C8_dedup_single_edge_per_pair (rows : List TaskRow)
    (twb : List (String × TaskWithBranches)) (k : String) (T : Task)
    (D : String) (hT : (k, T) ∈ task_by_id rows) :
    T.blocks.Nodup ∧ T.is_branch_of.Nodup
      ∧ ((T.blocks.filter (fun d => d == D)).flatMap
          (pairEdges (task_by_id rows) twb T)).length ≤ 1 := by
  obtain ⟨hid, hnb, hnbo, _⟩ := task_by_id_mem_shape hT
  refine ⟨hnb, hnbo, ?_⟩
  have hcount : (T.blocks.filter (fun d => d == D)).length ≤ 1 := by
    rw [← List.countP_eq_length_filter]
    exact List.nodup_iff_count_le_one.mp hnb D
  rcases hfl : T.blocks.filter (fun d => d == D) with _ | ⟨d0, rest⟩
  · simp
  · rw [hfl] at hcount
    have hrest : rest = [] := by
      cases rest with
      | nil => rfl
      | cons r rs => simp at hcount
    subst hrest
    simpa using pairEdges_length_le_one (task_by_id rows) twb T d0

/-- Witness for C8: two identical `a blocks b` rows normalise to a task
with a single-element `blocks`, and the pair `(a, b)` contributes one
edge only. -/
theorem C8_dedup_single_edge_per_pair_witness :
    ("a", c8task) ∈ task_by_id c8rows
      ∧ c8task.blocks.Nodup ∧ c8task.is_branch_of.Nodup
      ∧ ((c8task.blocks.filter (fun d => d == "b")).flatMap
          (pairEdges (task_by_id c8rows) [] c8task)).length ≤ 1 :=
  ⟨by decide,
    C8_dedup_single_edge_per_pair c8rows [] "a" c8task "b" (by decide)⟩

/-- Counterexample to C2 as stated: with two rows for task `a` where only
the second row carries the `is_bug` and `is_focused` markers, the
normalised task has both flags `false`, although the markers are present
on a row of the group. -/
theorem C2_counterexample :
    (List.lookup "a" (task_by_id c2rows)).map Task.is_bug = some false
      ∧ (List.lookup "a" (task_by_id c2rows)).map Task.is_focused = some false
      ∧ c2rows.any (fun r => r.task == "a" && r.is_bug) = true
      ∧ c2rows.any (fun r => r.task == "a" && r.is_focused) = true := by
  decide

/-- C2 amended: `is_bug`, `is_focused` (and `title`) of every normalised
task are read off the first row of that task's group in the stable
task-id-sorted row order, not off an arbitrary row of the group. -/
theorem C2_markers_from_first_row (rows : List TaskRow) (k : String) (t : Task)
    (h : (k, t) ∈ task_by_id_stream rows) :
    ∃ tid first rest,
      (tid, first :: rest) ∈ groupRunsBy TaskRow.task
          (List.insertionSort (fun a b => strLe a.task b.task = true) rows)
        ∧ k = as_graph_id tid ∧ t.title = first.title
        ∧ t.is_bug = first.is_bug ∧ t.is_focused = first.is_focused := by
  rw [task_by_id_stream] at h
  obtain ⟨⟨tid, g⟩, hkg, hsome⟩ := List.mem_filterMap.mp h
  obtain ⟨hk, hid, ⟨first, rest, hg, htitle, hbug, hfoc⟩, _, _⟩ :=
    taskOfGroup_some hsome
  exact ⟨tid, first, rest, by exact hg ▸ hkg, hk, htitle, hbug, hfoc⟩

/-- Witness for the amended C2 at the counterexample rows: the normalised
task for `a` carries the (false) marker flags of the group's first row. -/
theorem C2_markers_from_first_row_witness :
    ("a", c2task) ∈ task_by_id_stream c2rows
      ∧ ∃ tid first rest,
          (tid, first :: rest) ∈ groupRunsBy TaskRow.task
              (List.insertionSort (fun a b => strLe a.task b.task = true) c2rows)
            ∧ "a" = as_graph_id tid ∧ c2task.title = first.title
            ∧ c2task.is_bug = first.is_bug ∧ c2task.is_focused = first.is_focused :=
  ⟨by decide, C2_markers_from_first_row c2rows "a" c2task (by decide)⟩

/-- Entries of the compound-task map inherit their `id` from the parent
task looked up in the task map, so when task ids agree with their map
keys the entry ids agree with the compound map keys. -/
theorem twb_entry_id {taskById : List (String × Task)}
    {m : List (String × TaskWithBranches)}
    (h : task_with_branches_by_id taskById = some m)
    (hid : ∀ p ∈ taskById, p.2.id = p.1) :
    ∀ p ∈ m, p.2.id = p.1 := by
  intro p hp
  rw [task_with_branches_by_id] at h
  obtain ⟨⟨k1, g1⟩, hkg, hf⟩ := optionMapAll_mem_forward h p hp
  rcases hlook : List.lookup k1 taskById with _ | parent <;> rw [hlook] at hf
  · simp at hf
  · simp only [Option.map_some', Option.some.injEq] at hf
    have hpid : parent.id = k1 := hid (k1, parent) (lookup_mem hlook)
    rw [← hf]
    exact hpid

/-- Counterexample to C4 as stated: task `x` is a branch of `p`
(`is_branch_of` non-empty), yet because `y` declares itself a branch of
`x`, `x` is a compound-task key and a top-level (compound) node named
`x` is emitted. -/
theorem C4_counterexample :
    (List.lookup "x" c4map).map Task.is_branch_of = some ["p"]
      ∧ (task_with_branches_by_id c4map).map
          (fun m => (nodeNames c4map m).contains "x") = some true := by
  decide

/-- C4 amended: a task with non-empty `is_branch_of` that is *not itself
a compound-task key* gets no top-level node; only branch tasks that are
compound keys in their own right are drawn at top level. -/
theorem C4_branch_without_branches_hidden (taskById : List (String × Task))
    (m : List (String × TaskWithBranches))
    (h : task_with_branches_by_id taskById = some m)
    (hkeys : (taskById.map Prod.fst).Nodup)
    (hid : ∀ p ∈ taskById, p.2.id = p.1)
    (k : String) (t : Task) (ht : (k, t) ∈ taskById)
    (hbr : t.is_branch_of ≠ []) (hnc : List.lookup t.id m = none) :
    t.id ∉ nodeNames taskById m := by
  intro hmem
  rcases List.mem_append.mp hmem with hcomp | hplain
  · obtain ⟨node, hnode, hname⟩ := List.mem_map.mp hcomp
    rw [draw_nodes_with_branches] at hnode
    obtain ⟨pt, hpt, hne⟩ := List.mem_map.mp hnode
    have hnid : node.name = pt.2.id := by rw [← hne]
    have hpt1 : pt.2.id = pt.1 := twb_entry_id h hid pt hpt
    have hk1 : pt.1 = t.id := by rw [← hpt1, ← hnid, hname]
    have := lookup_isSome_of_mem (l := m) (k := pt.1) (v := pt.2)
      (by exact hpt)
    rw [hk1, hnc] at this
    simp at this
  · obtain ⟨node, hnode, hname⟩ := List.mem_map.mp hplain
    rw [draw_nodes_without_branches] at hnode
    obtain ⟨u, hu, hne⟩ := List.mem_map.mp hnode
    obtain ⟨humem, hupred⟩ := List.mem_filter.mp hu
    obtain ⟨⟨p1, p2⟩, hp, hpu⟩ := List.mem_map.mp humem
    have hpu' : p2 = u := hpu
    have hnid : node.name = u.id := by rw [← hne]
    have huid : u.id = p1 := by rw [← hpu']; exact hid (p1, p2) hp
    have htid : t.id = k := hid (k, t) ht
    have hut : u.id = t.id := by rw [← hnid, hname]
    have hpk : p1 = k := by rw [← huid, hut, htid]
    have hku : (k, u) ∈ taskById := by
      rw [← hpk, ← hpu']
      exact hp
    have hteq : t = u := assoc_nodup_unique hkeys ht hku
    simp only [Bool.and_eq_true] at hupred
    rw [← hteq] at hupred
    exact hbr (List.isEmpty_iff.mp hupred.2)

/-- Witness for the amended C4: branch task `x` of `c10map` is not a
compound key, and no top-level node named `x` is emitted. -/
theorem C4_branch_without_branches_hidden_witness :
    (task_with_branches_by_id c10map = some [("p", c10tw)]
        ∧ (c10map.map Prod.fst).Nodup
        ∧ (∀ p ∈ c10map, p.2.id = p.1)
        ∧ ("x", c4xtask) ∈ c10map
        ∧ c4xtask.is_branch_of ≠ []
        ∧ List.lookup c4xtask.id [("p", c10tw)] = none)
      ∧ c4xtask.id ∉ nodeNames c10map [("p", c10tw)] :=
  ⟨⟨by decide, by decide, by decide, by decide, by decide, by decide⟩,
    C4_branch_without_branches_hidden c10map [("p", c10tw)] (by decide)
      (by decide) (by decide) "x" c4xtask (by decide) (by decide) (by decide)⟩

/-- Entries of the compound-task map take their `branches` from tasks of
the task map: every branch task is a value of the task map. -/
theorem twb_branches_sub {taskById : List (String × Task)}
    {m : List (String × TaskWithBranches)}
    (h : task_with_branches_by_id taskById = some m) :
    ∀ pm ∈ m, ∀ b ∈ pm.2.branches, b ∈ taskById.map Prod.snd := by
  intro pm hpm b hb
  rw [task_with_branches_by_id] at h
  obtain ⟨⟨k1, g1⟩, hkg, hf⟩ := optionMapAll_mem_forward h pm hpm
  rcases hlook : List.lookup k1 taskById with _ | parent <;> rw [hlook] at hf
  · simp at hf
  · simp only [Option.map_some', Option.some.injEq] at hf
    have hbr : pm.2.branches = g1.map Prod.snd := by rw [← hf]
    rw [hbr] at hb
    obtain ⟨⟨q, c⟩, hqc, he⟩ := List.mem_map.mp hb
    have hsort : (q, c) ∈ List.insertionSort (fun a b => strLe a.1 b.1 = true)
        ((taskById.map Prod.snd).flatMap
          (fun child_task => child_task.is_branch_of.map
            (fun p => (p, child_task)))) :=
      mem_of_mem_group hkg hqc
    have hrow := (List.perm_insertionSort
      (fun a b : String × Task => strLe a.1 b.1 = true) _).mem_iff.mp hsort
    obtain ⟨child, hchild, hmem2⟩ := List.mem_flatMap.mp hrow
    obtain ⟨q2, hq2, he2⟩ := List.mem_map.mp hmem2
    injection he2 with e1 e2
    rw [← he, ← e2]
    exact hchild

/-- Counterexample to C7 as stated: the secondary stream names branch
`x` of root `p` with pipe-escaped title `a\|b`, but the emitted compound
node's sole sub-row label is built from the primary-stream title
`Alpha` instead — the branch-label pairs are not what the sub-row label
text is taken from. -/
theorem C7_counterexample :
    find_branches_by_task c7branchRows = [("p", [("x", "a\\|b")])]
      ∧ (task_with_branches_by_id c7map).map
          (fun m => (draw_nodes_with_branches m).map
            (fun n => n.subRows.map SubRowCell.content))
        = some [[wrap_html "Alpha"]]
      ∧ wrap_html "Alpha" = "Alpha<br align=\"center\"/>"
      ∧ wrap_html "Alpha" ≠ "a\\|b" := by
  decide

/-- C7 amended: the sub-row labels of the compound nodes come from the
primary task stream: every sub-row's port is a task-map task's id and
its label text is that task's (wrapped) primary title; the pairs built
by `find_branches_by_task` from the secondary stream are not used. -/
theorem C7_subrow_labels_from_primary (taskById : List (String × Task))
    (m : List (String × TaskWithBranches))
    (h : task_with_branches_by_id taskById = some m) :
    ∀ node ∈ draw_nodes_with_branches m, ∀ sub ∈ node.subRows,
      ∃ t ∈ taskById.map Prod.snd,
        sub.port = t.id ∧ sub.content = wrap_html t.title "center" := by
  intro node hnode sub hsub
  rw [draw_nodes_with_branches] at hnode
  obtain ⟨pm, hpm, hne⟩ := List.mem_map.mp hnode
  have hsubs : node.subRows = pm.2.branches.mapIdx fun index branch =>
      { content := wrap_html branch.title
        border := if index < pm.2.branches.length - 1 then 1 else 0
        port := branch.id } := by
    rw [← hne]
  rw [hsubs, List.mapIdx_eq_enum_map] at hsub
  obtain ⟨⟨i, branch⟩, hib, hes⟩ := List.mem_map.mp hsub
  have hbr : branch ∈ pm.2.branches := by
    rw [← List.enum_map_snd pm.2.branches]
    exact List.mem_map.mpr ⟨(i, branch), hib, rfl⟩
  refine ⟨branch, twb_branches_sub h pm hpm branch hbr, ?_, ?_⟩
  · rw [← hes]
    rfl
  · rw [← hes]
    rfl

/-- Witness for the amended C7: in the map with compound task `p` and
branch `x` titled `Alpha`, the sub-row of `p`'s node has port `x` and
label text `wrap_html "Alpha"`. -/
theorem C7_subrow_labels_from_primary_witness :
    task_with_branches_by_id c7map = some [("p", c7tw)]
      ∧ (∀ node ∈ draw_nodes_with_branches [("p", c7tw)],
          ∀ sub ∈ node.subRows,
            ∃ t ∈ c7map.map Prod.snd,
              sub.port = t.id ∧ sub.content = wrap_html t.title "center") :=
  ⟨by decide, C7_subrow_labels_from_primary c7map [("p", c7tw)] (by decide)⟩

/-- C1: for every `(T, D)` pair with `D` present in the task map, the
resolved edge is emitted, and its endpoints follow the stated priority
rules: destination is parent `P`'s node at `D`'s own sub-row anchor
entering west when `D`'s `is_branch_of` is non-empty (with first parent
`P`), else `D`'s shared `xor` anchor entering west when `D` is a
compound-task key, else `D`'s outer boundary with `headport = 'w'`;
source is `T`'s `title` anchor exiting east when `T` is a compound-task
key, else `T`'s outer boundary with `tailport = 'e'`; whenever a named
anchor is used the corresponding side parameter is unset.  (Ids are
assumed non-empty strings, as every id the queries deliver is; an empty
parent id would be falsy in Python's walrus test.) -/
theorem C1_edge_anchor_resolution (taskById : List (String × Task))
    (twb : List (String × TaskWithBranches))
    (hid : ∀ p ∈ taskById, p.2.id = p.1)
    (hne : ∀ p ∈ taskById, ∀ b ∈ p.2.is_branch_of, b ≠ "")
    (k : String) (T : Task) (hT : (k, T) ∈ taskById)
    (D : String) (hD : D ∈ T.blocks) (dT : Task)
    (hdT : List.lookup D taskById = some dT) :
    edgeFor twb T dT D ∈ draw_edges taskById twb
      ∧ (∀ P rest, dT.is_branch_of = P :: rest →
          (edgeFor twb T dT D).dest = P ++ ":" ++ D ++ ":w"
            ∧ (edgeFor twb T dT D).headport = none)
      ∧ (dT.is_branch_of = [] → (List.lookup D twb).isSome →
          (edgeFor twb T dT D).dest = D ++ ":xor:w"
            ∧ (edgeFor twb T dT D).headport = none)
      ∧ (dT.is_branch_of = [] → List.lookup D twb = none →
          (edgeFor twb T dT D).dest = D
            ∧ (edgeFor twb T dT D).headport = some "w")
      ∧ ((List.lookup T.id twb).isSome →
          (edgeFor twb T dT D).source = T.id ++ ":title:e"
            ∧ (edgeFor twb T dT D).tailport = none)
      ∧ (List.lookup T.id twb = none →
          (edgeFor twb T dT D).source = T.id
            ∧ (edgeFor twb T dT D).tailport = some "e") := by
  have hTid : T.id = k := hid (k, T) hT
  have hown : (List.lookup T.id taskById).isSome := by
    rw [hTid]
    exact lookup_isSome_of_mem hT
  refine ⟨?_, ?_, ?_, ?_, ?_, ?_⟩
  · rw [draw_edges_eq_flatMap]
    refine List.mem_flatMap.mpr ⟨T, List.mem_map.mpr ⟨(k, T), hT, rfl⟩, ?_⟩
    refine List.mem_flatMap.mpr ⟨D, hD, ?_⟩
    rw [pairEdges_of_some hdT hown]
    exact List.mem_cons_self _ _
  · intro P rest hbr
    have hPne : P ≠ "" :=
      hne (D, dT) (lookup_mem hdT) P (by rw [hbr]; exact List.mem_cons_self _ _)
    constructor <;>
      simp [edgeFor, destFor, hbr, truthyOpt, Option.filter, hPne]
  · intro hbr hkey
    constructor <;>
      simp [edgeFor, destFor, hbr, truthyOpt, Option.filter, hkey]
  · intro hbr hkey
    constructor <;>
      simp [edgeFor, destFor, hbr, truthyOpt, Option.filter, hkey]
  · intro hkey
    constructor <;> simp [edgeFor, srcFor, hkey]
  · intro hkey
    constructor <;> simp [edgeFor, srcFor, hkey]

/-- Compound-map keys resolve in the task map: each entry's key was
looked up successfully when the map was built. -/
theorem twb_entry_parent {taskById : List (String × Task)}
    {m : List (String × TaskWithBranches)}
    (h : task_with_branches_by_id taskById = some m) :
    ∀ pm ∈ m, ∃ parent, List.lookup pm.1 taskById = some parent := by
  intro pm hpm
  rw [task_with_branches_by_id] at h
  obtain ⟨⟨k1, g1⟩, hkg, hf⟩ := optionMapAll_mem_forward h pm hpm
  rcases hlook : List.lookup k1 taskById with _ | parent <;> rw [hlook] at hf
  · simp at hf
  · simp only [Option.map_some', Option.some.injEq] at hf
    have hk : pm.1 = k1 := by rw [← hf]
    exact ⟨parent, by rw [hk, hlook]⟩

/-- C9: `as_graph_id` performs an exact per-character substitution of
`:` by `_` (same length, pointwise image, no colon left), every key of
the task map is the sanitised form of a source row's task id and every
task's `id`, `blocks` and `is_branch_of` entries are sanitised ids, the
names of all emitted nodes are task-map keys, and every emitted edge's
endpoints are built from exactly those ids (the task's `id` for the
source, the blocked id from `blocks` for the destination, plus the fixed
port suffixes). -/
theorem C9_sanitised_ids (rows : List TaskRow)
    (m : List (String × TaskWithBranches))
    (h : task_with_branches_by_id (task_by_id rows) = some m) :
    (∀ s : String, (as_graph_id s).data.length = s.data.length
        ∧ (∀ i : Nat, (as_graph_id s).data[i]? = s.data[i]?.map sanChar)
        ∧ ':' ∉ (as_graph_id s).data)
      ∧ (∀ p ∈ task_by_id rows,
          (∃ r ∈ rows, p.1 = as_graph_id r.task) ∧ p.2.id = p.1
            ∧ (∀ b ∈ p.2.blocks, ∃ raw, b = as_graph_id raw)
            ∧ (∀ b ∈ p.2.is_branch_of, ∃ raw, b = as_graph_id raw))
      ∧ (∀ node ∈ draw_nodes_with_branches m,
          ∃ p ∈ task_by_id rows, node.name = p.1)
      ∧ (∀ node ∈ draw_nodes_without_branches (task_by_id rows) m,
          ∃ p ∈ task_by_id rows, node.name = p.1)
      ∧ (∀ p ∈ task_by_id rows, ∀ d ∈ p.2.blocks,
          ∀ e ∈ pairEdges (task_by_id rows) m p.2 d,
            (e.source = p.2.id ∨ e.source = p.2.id ++ ":title:e")
              ∧ (e.dest = d ∨ e.dest = d ++ ":xor:w"
                  ∨ ∃ parent_id, e.dest = parent_id ++ ":" ++ d ++ ":w")) := by
  have hid : ∀ p ∈ task_by_id rows, p.2.id = p.1 := by
    intro p hp
    obtain ⟨p1, p2⟩ := p
    exact (task_by_id_mem_shape hp).1
  refine ⟨?_, ?_, ?_, ?_, ?_⟩
  · intro s
    refine ⟨by simp [as_graph_id], ?_, ?_⟩
    · intro i
      simp [as_graph_id, List.getElem?_map]
    · intro hc
      obtain ⟨c0, hc0, he⟩ := List.mem_map.mp hc
      by_cases h0 : c0 = ':'
      · rw [sanChar, if_pos h0] at he
        cases he
      · rw [sanChar, if_neg h0] at he
        exact h0 he
  · intro p hp
    obtain ⟨p1, p2⟩ := p
    obtain ⟨hpid, _, _, ⟨r, hr, hk⟩, hbl, hbo⟩ := task_by_id_mem_shape hp
    refine ⟨⟨r, hr, hk⟩, hpid, ?_, ?_⟩
    · intro b hb
      obtain ⟨r2, hr2, raw, _, he⟩ := hbl b hb
      exact ⟨raw, he⟩
    · intro b hb
      obtain ⟨r2, hr2, raw, _, he⟩ := hbo b hb
      exact ⟨raw, he⟩
  · intro node hnode
    rw [draw_nodes_with_branches] at hnode
    obtain ⟨pm, hpm, hne⟩ := List.mem_map.mp hnode
    obtain ⟨parent, hlook⟩ := twb_entry_parent h pm hpm
    have hname : node.name = pm.2.id := by rw [← hne]
    have hpmid : pm.2.id = pm.1 := twb_entry_id h hid pm hpm
    exact ⟨(pm.1, parent), lookup_mem hlook, by rw [hname, hpmid]⟩
  · intro node hnode
    rw [draw_nodes_without_branches] at hnode
    obtain ⟨u, hu, hne⟩ := List.mem_map.mp hnode
    obtain ⟨humem, _⟩ := List.mem_filter.mp hu
    obtain ⟨⟨p1, p2⟩, hp, hpu⟩ := List.mem_map.mp humem
    have hpu' : p2 = u := hpu
    have hname : node.name = u.id := by rw [← hne]
    refine ⟨(p1, p2), hp, ?_⟩
    rw [hname, ← hpu']
    exact hid (p1, p2) hp
  · intro p hp d hd e he
    rcases hl : List.lookup d (task_by_id rows) with _ | bt
    · rw [pairEdges_of_none hl] at he
      simp at he
    · by_cases hown : (List.lookup p.2.id (task_by_id rows)).isSome
      · rw [pairEdges_of_some hl hown] at he
        have hee : e = edgeFor m p.2 bt d := by
          rcases List.mem_cons.mp he with h1 | h2
          · exact h1
          · simp at h2
        subst hee
        constructor
        · rw [edgeFor]
          simp only [srcFor]
          split
          · right
            rfl
          · left
            rfl
        · rw [edgeFor]
          rcases htr : truthyOpt bt.is_branch_of.head? with _ | parent_id
          · simp only [destFor, htr]
            split
            · right
              left
              rfl
            · left
              rfl
          · simp only [destFor, htr]
            right
            right
            exact ⟨parent_id, rfl⟩
      · simp only [pairEdges, hl, if_neg hown] at he
        simp at he

/-- C3: the compound-task map has an entry keyed `X` iff some task of
the task map declares `is_branch_of` containing `X`, and that entry's
`branches` list consists of exactly those child tasks (a permutation of
the task-map values filtered to the declarers, counted with
multiplicity). -/
theorem C3_compound_map_characterisation (taskById : List (String × Task))
    (m : List (String × TaskWithBranches))
    (h : task_with_branches_by_id taskById = some m)
    (hnd : ∀ p ∈ taskById, p.2.is_branch_of.Nodup) :
    (∀ X, (List.lookup X m).isSome
        ↔ ∃ t ∈ taskById.map Prod.snd, X ∈ t.is_branch_of)
      ∧ (∀ X tw, (X, tw) ∈ m →
          tw.branches.Perm ((taskById.map Prod.snd).filter
            (fun t => decide (X ∈ t.is_branch_of)))) := by
  rw [task_with_branches_by_id] at h
  haveI hto : IsTotal (String × Task) (fun a b => strLe a.1 b.1 = true) :=
    ⟨fun a b => strLe_total a.1 b.1⟩
  haveI htrans : IsTrans (String × Task) (fun a b => strLe a.1 b.1 = true) :=
    ⟨fun a b c h1 h2 => strLe_trans h1 h2⟩
  have hsorted := List.sorted_insertionSort
    (fun a b : String × Task => strLe a.1 b.1 = true)
    ((taskById.map Prod.snd).flatMap
      (fun child_task => child_task.is_branch_of.map (fun p => (p, child_task))))
  have hperm := List.perm_insertionSort
    (fun a b : String × Task => strLe a.1 b.1 = true)
    ((taskById.map Prod.snd).flatMap
      (fun child_task => child_task.is_branch_of.map (fun p => (p, child_task))))
  have hkeysnd := keys_nodup_of_sorted Prod.fst hsorted
  have hnd' : ∀ t ∈ taskById.map Prod.snd, t.is_branch_of.Nodup := by
    intro t ht
    obtain ⟨p, hp, hpt⟩ := List.mem_map.mp ht
    rw [← hpt]
    exact hnd p hp
  constructor
  · intro X
    constructor
    · intro hsome
      rcases hlk : List.lookup X m with _ | tw
      · rw [hlk] at hsome
        simp at hsome
      have hmem : (X, tw) ∈ m := lookup_mem hlk
      obtain ⟨⟨k1, g1⟩, hkg, hf⟩ := optionMapAll_mem_forward h (X, tw) hmem
      rcases hlook : List.lookup k1 taskById with _ | parent <;> rw [hlook] at hf
      · simp at hf
      simp only [Option.map_some', Option.some.injEq, Prod.mk.injEq] at hf
      obtain ⟨hk1, _⟩ := hf
      rcases hg1 : g1 with _ | ⟨⟨q, c⟩, g1'⟩
      · exact absurd hg1 (group_ne_nil hkg)
      have hq : q = k1 :=
        mem_group_key hkg (q, c) (by rw [hg1]; exact List.mem_cons_self _ _)
      have hrow := hperm.mem_iff.mp
        (mem_of_mem_group hkg (by rw [hg1]; exact List.mem_cons_self _ _))
      obtain ⟨child, hchild, hmm⟩ := List.mem_flatMap.mp hrow
      obtain ⟨q2, hq2, he2⟩ := List.mem_map.mp hmm
      injection he2 with e1 e2
      refine ⟨child, hchild, ?_⟩
      rw [← hk1, ← hq, ← e1]
      exact hq2
    · rintro ⟨t, ht, hX⟩
      have hrow : (X, t) ∈ (taskById.map Prod.snd).flatMap
          (fun child_task => child_task.is_branch_of.map
            (fun p => (p, child_task))) :=
        List.mem_flatMap.mpr ⟨t, ht, List.mem_map.mpr ⟨X, hX, rfl⟩⟩
      have hsortmem := hperm.mem_iff.mpr hrow
      have hgm : (X, t) ∈ (groupRunsBy Prod.fst
          (List.insertionSort (fun a b : String × Task => strLe a.1 b.1 = true)
            ((taskById.map Prod.snd).flatMap
              (fun child_task => child_task.is_branch_of.map
                (fun p => (p, child_task)))))).flatMap Prod.snd := by
        rw [flatMap_snd_groupRunsBy]
        exact hsortmem
      obtain ⟨⟨k1, g1⟩, hkg, hmemg⟩ := List.mem_flatMap.mp hgm
      have hk1 : X = k1 := mem_group_key hkg (X, t) hmemg
      obtain ⟨b, hbm, hfb⟩ := optionMapAll_mem_backward h (k1, g1) hkg
      rcases hlook : List.lookup k1 taskById with _ | parent <;> rw [hlook] at hfb
      · simp at hfb
      simp only [Option.map_some', Option.some.injEq] at hfb
      rw [← hfb] at hbm
      rw [hk1]
      exact lookup_isSome_of_mem hbm
  · intro X tw hmem
    obtain ⟨⟨k1, g1⟩, hkg, hf⟩ := optionMapAll_mem_forward h (X, tw) hmem
    rcases hlook : List.lookup k1 taskById with _ | parent <;> rw [hlook] at hf
    · simp at hf
    simp only [Option.map_some', Option.some.injEq, Prod.mk.injEq] at hf
    obtain ⟨hk1, htw⟩ := hf
    have hbr : tw.branches = g1.map Prod.snd := by rw [← htw]
    apply List.perm_iff_count.mpr
    intro c
    have hL : (g1.map Prod.snd).count c = g1.countP (fun x => x.2 == c) := by
      rw [List.count_eq_countP, List.countP_map]
      rfl
    have hkgX : (X, g1) ∈ groupRunsBy Prod.fst
        (List.insertionSort (fun a b : String × Task => strLe a.1 b.1 = true)
          ((taskById.map Prod.snd).flatMap
            (fun child_task => child_task.is_branch_of.map
              (fun p => (p, child_task))))) := by
      rw [← hk1]
      exact hkg
    have hgrp := countP_group Prod.fst hkeysnd hkgX
      (fun x => x.2 == c)
    have hrows := branch_rows_countP (taskById.map Prod.snd) X c hnd'
    have hpermc := hperm.countP_eq (fun x => x.2 == c && decide (x.1 = X))
    have hR : ((taskById.map Prod.snd).filter
          (fun t => decide (X ∈ t.is_branch_of))).count c
        = (taskById.map Prod.snd).countP
            (fun t => t == c && decide (X ∈ t.is_branch_of)) := by
      rw [List.count_eq_countP, List.countP_filter]
    rw [hbr, hL, hR, ← hgrp, hpermc, hrows]

/-- Witness for C3: with `x` and `y` both branches of `p`, the compound
map has exactly the entry for `p`, whose branches are exactly the two
declaring tasks. -/
theorem C3_compound_map_characterisation_witness :
    (task_with_branches_by_id c3map = some [("p", c3tw)]
        ∧ (∀ p ∈ c3map, p.2.is_branch_of.Nodup))
      ∧ ((∀ X, (List.lookup X [("p", c3tw)]).isSome
            ↔ ∃ t ∈ c3map.map Prod.snd, X ∈ t.is_branch_of)
          ∧ (∀ X tw, (X, tw) ∈ [("p", c3tw)] →
              tw.branches.Perm ((c3map.map Prod.snd).filter
                (fun t => decide (X ∈ t.is_branch_of))))) :=
  ⟨⟨by decide, by decide⟩,
    C3_compound_map_characterisation c3map [("p", c3tw)] (by decide) (by decide)⟩

/-- Witness for C9 at a concrete row stream whose source ids contain
colons: the sanitised map and its nodes and edges exist and satisfy the
resolution. -/
theorem C9_sanitised_ids_witness :
    task_with_branches_by_id (task_by_id c9rows) = some c9m
      ∧ ((∀ s : String, (as_graph_id s).data.length = s.data.length
            ∧ (∀ i : Nat, (as_graph_id s).data[i]? = s.data[i]?.map sanChar)
            ∧ ':' ∉ (as_graph_id s).data)
          ∧ (∀ p ∈ task_by_id c9rows,
              (∃ r ∈ c9rows, p.1 = as_graph_id r.task) ∧ p.2.id = p.1
                ∧ (∀ b ∈ p.2.blocks, ∃ raw, b = as_graph_id raw)
                ∧ (∀ b ∈ p.2.is_branch_of, ∃ raw, b = as_graph_id raw))
          ∧ (∀ node ∈ draw_nodes_with_branches c9m,
              ∃ p ∈ task_by_id c9rows, node.name = p.1)
          ∧ (∀ node ∈ draw_nodes_without_branches (task_by_id c9rows) c9m,
              ∃ p ∈ task_by_id c9rows, node.name = p.1)
          ∧ (∀ p ∈ task_by_id c9rows, ∀ d ∈ p.2.blocks,
              ∀ e ∈ pairEdges (task_by_id c9rows) c9m p.2 d,
                (e.source = p.2.id ∨ e.source = p.2.id ++ ":title:e")
                  ∧ (e.dest = d ∨ e.dest = d ++ ":xor:w"
                      ∨ ∃ parent_id, e.dest = parent_id ++ ":" ++ d ++ ":w"))) :=
  ⟨by decide, C9_sanitised_ids c9rows c9m (by decide)⟩

/-- Witness for C1 at a concrete map: `q` blocks `x`, which is a branch
of `p`; the emitted edge runs from `q`'s boundary (east) to `p:x:w` with
no separate head side. -/
theorem C1_edge_anchor_resolution_witness :
    ((∀ p ∈ c1map, p.2.id = p.1)
        ∧ (∀ p ∈ c1map, ∀ b ∈ p.2.is_branch_of, b ≠ "")
        ∧ ("q", c1taskQ) ∈ c1map
        ∧ "x" ∈ c1taskQ.blocks
        ∧ List.lookup "x" c1map = some c1taskX)
      ∧ edgeFor [] c1taskQ c1taskX "x" ∈ draw_edges c1map []
      ∧ (edgeFor [] c1taskQ c1taskX "x").dest = "p" ++ ":" ++ "x" ++ ":w"
      ∧ (edgeFor [] c1taskQ c1taskX "x").headport = none
      ∧ (edgeFor [] c1taskQ c1taskX "x").source = c1taskQ.id
      ∧ (edgeFor [] c1taskQ c1taskX "x").tailport = some "e" :=
  ⟨⟨by decide, by decide, by decide, by decide, by decide⟩,
    (C1_edge_anchor_resolution c1map [] (by decide) (by decide) "q" c1taskQ
      (by decide) "x" (by decide) c1taskX (by decide)).1,
    by decide, by decide, by decide, by decide⟩

